import Mathlib

/-!
Verification of the directed-graph ADT with DFS-based topological ordering
implemented in `Project2_Refined.py` and `Reorganized_Project2.py`.

The Python `dict` (`self.adjacency_list`, `visit_state`) preserves insertion
order, so it is embedded as an insertion-ordered association list:
* reading `d[k]` is `dlookup`,
* writing `d[k] = b` is `dset` (update in place, or append a new key at the end),
* `d[k].append(x)` on the adjacency list is `adjAppend`.

Reading a missing key raises `KeyError` in Python; the embedding returns the
default (`Option.getD`).  For every graph built through `add_vertex`/`add_edge`
the algorithm only ever reads keys that are present (the endpoint-closure
invariant proved below), so the two semantics agree on all reachable states.
-/

namespace Project2

variable {V : Type} [DecidableEq V]

/-- An insertion-ordered association list: the model of a Python `dict`. -/
abbrev AdjList (V : Type) := List (V × List V)

/-- Reading `d[k]`: the value of the first entry whose key is `k`. -/
def dlookup {β : Type} : List (V × β) → V → Option β
  | [], _ => none
  | (k, b) :: rest, v => if k = v then some b else dlookup rest v

/-- Writing `d[k] = b`: replace the entry in place, or append a new key at the end. -/
def dset {β : Type} : List (V × β) → V → β → List (V × β)
  | [], k, b => [(k, b)]
  | (k', b') :: rest, k, b =>
      if k' = k then (k, b) :: rest else (k', b') :: dset rest k b

/-- `d[u].append(v)` on the adjacency list: append `v` at the end of `u`'s
successor list, leaving every other entry untouched. -/
def adjAppend : AdjList V → V → V → AdjList V
  | [], _, _ => []
  | (k, succs) :: rest, u, v =>
      if k = u then (k, succs ++ [v]) :: rest else (k, succs) :: adjAppend rest u v

/-- The membership test `v in self.adjacency_list`. -/
def containsKey (g : AdjList V) (v : V) : Bool := (dlookup g v).isSome

/-- The keys of the adjacency mapping in insertion order
(`for vertex in self.adjacency_list`). -/
def keys (g : AdjList V) : List V := g.map Prod.fst

/-- `Graph.add_vertex` (Project2_Refined.py lines 12-20): insert `v` with an
empty successor list if absent, no-op otherwise. -/
def add_vertex (g : AdjList V) (v : V) : AdjList V :=
  if containsKey g v then g else g ++ [(v, [])]

/-- `Graph.add_edge` (Project2_Refined.py lines 22-35): ensure `u` is a key,
then ensure `v` is a key, then append `v` to `u`'s successor list. -/
def add_edge (g : AdjList V) (u v : V) : AdjList V :=
  let g1 := if containsKey g u then g else add_vertex g u
  let g2 := if containsKey g1 v then g1 else add_vertex g1 v
  adjAppend g2 u v

/-- A single mutation call on the ADT. -/
inductive Op (V : Type) where
  | addV (v : V) : Op V
  | addE (u v : V) : Op V

/-- Apply one mutation call. -/
def applyOp (g : AdjList V) : Op V → AdjList V
  | Op.addV v => add_vertex g v
  | Op.addE u v => add_edge g u v

/-- The graph obtained from the empty graph by a sequence of
`add_vertex`/`add_edge` calls. -/
def buildGraph (ops : List (Op V)) : AdjList V := ops.foldl applyOp []

/-- The mutable state of one `topological_sort` call: the adjacency list
(`self.adjacency_list`), the `visit_state` dict, the `topological_order`
accumulator and the `is_dag` flag. -/
structure DfsState (V : Type) where
  adj : AdjList V
  visit : List (V × Nat)
  order : List V
  isDag : Bool

/-- Reading `visit_state[v]` (0 = unvisited, 1 = visiting, 2 = visited). -/
def stateOf (s : DfsState V) (v : V) : Nat := (dlookup s.visit v).getD 0

/-- `visit_state[v] = 1` (mark as Visiting). -/
def markStep (v : V) (s : DfsState V) : DfsState V :=
  { s with visit := dset s.visit v 1 }

/-- `visit_state[v] = 2` followed by `topological_order.insert(0, v)`. -/
def finishStep (v : V) (s : DfsState V) : DfsState V :=
  { s with visit := dset s.visit v 2, order := v :: s.order }

/-- The recursive helper `dfs` (Project2_Refined.py lines 52-74).  The fuel
argument bounds the recursion depth; `topoRun` supplies `|vertices| + 1`,
which is proved sufficient below (`dfs_fuel_irrel`). -/
def dfs : Nat → V → DfsState V → DfsState V
  | 0, _, s => s
  | fuel + 1, v, s =>
      if stateOf s v = 1 then { s with isDag := false }
      else if stateOf s v = 2 then s
      else
        finishStep v
          (((dlookup s.adj v).getD []).foldl (fun t w => dfs fuel w t) (markStep v s))

/-- The loop `for neighbor in self.adjacency_list[vertex]: dfs(neighbor)`. -/
def dfsList (fuel : Nat) (l : List V) (s : DfsState V) : DfsState V :=
  l.foldl (fun t w => dfs fuel w t) s

/-- `visit_state = {vertex: 0 for vertex in self.adjacency_list}`. -/
def initVisit (g : AdjList V) : List (V × Nat) := g.map (fun p => (p.1, 0))

/-- One iteration of the top-level loop
`for vertex in self.adjacency_list: if visit_state[vertex] == 0: dfs(vertex)`. -/
def topoStep (fuel : Nat) (s : DfsState V) (v : V) : DfsState V :=
  if stateOf s v = 0 then dfs fuel v s else s

/-- The full traversal of `topological_sort` with explicit fuel. -/
def topoRunWith (fuel : Nat) (g : AdjList V) : DfsState V :=
  (keys g).foldl (topoStep fuel) { adj := g, visit := initVisit g, order := [], isDag := true }

/-- The full traversal with the canonical (sufficient) fuel. -/
def topoRun (g : AdjList V) : DfsState V := topoRunWith (g.length + 1) g

/-- `Graph.topological_sort` with explicit fuel: return the accumulated order,
or the empty list if a cycle was detected (lines 81-85). -/
def topological_sortWith (fuel : Nat) (g : AdjList V) : List V :=
  if (topoRunWith fuel g).isDag then (topoRunWith fuel g).order else []

/-- `Graph.topological_sort` (Project2_Refined.py lines 37-85). -/
def topological_sort (g : AdjList V) : List V :=
  if (topoRun g).isDag then (topoRun g).order else []

/-- There is an edge from `u` to `v` when `v` occurs in `u`'s successor list. -/
def Edge (g : AdjList V) (u v : V) : Prop :=
  ∃ l, dlookup g u = some l ∧ v ∈ l

/-- `v` is reachable from `u` by following one or more stored edges. -/
inductive Reach (g : AdjList V) : V → V → Prop where
  | single {u v : V} : Edge g u v → Reach g u v
  | head {u v w : V} : Edge g u v → Reach g v w → Reach g u w

/-- The graph contains a directed cycle. -/
def HasCycle (g : AdjList V) : Prop := ∃ v, Reach g v v

/-- Endpoint closure: every vertex referenced in a successor list is a key. -/
def Closed (g : AdjList V) : Prop :=
  ∀ u l, dlookup g u = some l → ∀ v, v ∈ l → containsKey g v = true

/-- The index of the first occurrence of `a` in `l` (`l.index(a)` in Python);
`l.length` when absent. -/
def idxOf : List V → V → Nat
  | [], _ => 0
  | x :: xs, a => if x = a then 0 else idxOf xs a + 1

/-- The number of entries of `visit_state` still marked unvisited. -/
def count0 : List (V × Nat) → Nat
  | [] => 0
  | p :: rest => (if p.2 = 0 then 1 else 0) + count0 rest

end Project2

namespace Project2.Reorganized

variable {V : Type} [DecidableEq V]

/-- `Graph.add_vertex` of Reorganized_Project2.py (lines 13-21). -/
def add_vertex (g : AdjList V) (v : V) : AdjList V :=
  if containsKey g v then g else g ++ [(v, [])]

/-- `Graph.add_edge` of Reorganized_Project2.py (lines 23-33). -/
def add_edge (g : AdjList V) (u v : V) : AdjList V :=
  let g1 := if containsKey g u then g else add_vertex g u
  let g2 := if containsKey g1 v then g1 else add_vertex g1 v
  adjAppend g2 u v

/-- Apply one mutation call of the reorganized implementation. -/
def applyOp (g : AdjList V) : Op V → AdjList V
  | Op.addV v => add_vertex g v
  | Op.addE u v => add_edge g u v

/-- Build a graph with the reorganized implementation. -/
def buildGraph (ops : List (Op V)) : AdjList V := ops.foldl applyOp []

/-- The recursive helper `dfs` of Reorganized_Project2.py (lines 46-68). -/
def dfs : Nat → V → DfsState V → DfsState V
  | 0, _, s => s
  | fuel + 1, v, s =>
      if stateOf s v = 1 then { s with isDag := false }
      else if stateOf s v = 2 then s
      else
        finishStep v
          (((dlookup s.adj v).getD []).foldl (fun t w => dfs fuel w t) (markStep v s))

/-- One iteration of the top-level loop of Reorganized_Project2.py. -/
def topoStep (fuel : Nat) (s : DfsState V) (v : V) : DfsState V :=
  if stateOf s v = 0 then dfs fuel v s else s

/-- The full traversal of the reorganized `topological_sort` with explicit fuel. -/
def topoRunWith (fuel : Nat) (g : AdjList V) : DfsState V :=
  (keys g).foldl (topoStep fuel) { adj := g, visit := initVisit g, order := [], isDag := true }

/-- The full traversal with the canonical fuel. -/
def topoRun (g : AdjList V) : DfsState V := topoRunWith (g.length + 1) g

/-- `Graph.topological_sort` of Reorganized_Project2.py (lines 35-79). -/
def topological_sort (g : AdjList V) : List V :=
  if (topoRun g).isDag then (topoRun g).order else []

end Project2.Reorganized

namespace Project2

variable {V : Type} [DecidableEq V]

lemma dlookup_dset_self {β : Type} (l : List (V × β)) (k : V) (b : β) :
    dlookup (dset l k b) k = some b := by
  induction l with
  | nil => simp [dset, dlookup]
  | cons p rest ih =>
      obtain ⟨k', b'⟩ := p
      by_cases h : k' = k
      · simp [dset, h, dlookup]
      · simp [dset, h, dlookup, ih]

lemma dlookup_dset_ne {β : Type} (l : List (V × β)) (k u : V) (b : β) (hu : u ≠ k) :
    dlookup (dset l k b) u = dlookup l u := by
  induction l with
  | nil => simp [dset, dlookup, Ne.symm hu]
  | cons p rest ih =>
      obtain ⟨k', b'⟩ := p
      by_cases h : k' = k
      · subst h
        simp [dset, dlookup, Ne.symm hu]
      · simp [dset, h, dlookup, ih]

lemma mapfst_dset {β : Type} (l : List (V × β)) (k : V) (b : β)
    (hk : k ∈ l.map Prod.fst) :
    (dset l k b).map Prod.fst = l.map Prod.fst := by
  induction l with
  | nil => simp at hk
  | cons p rest ih =>
      obtain ⟨k', b'⟩ := p
      by_cases h : k' = k
      · simp [dset, h]
      · simp only [List.map_cons, List.mem_cons] at hk
        rcases hk with hk | hk
        · exact absurd hk.symm h
        · simp [dset, h, ih hk]

lemma dlookup_isSome_iff {β : Type} (l : List (V × β)) (u : V) :
    (dlookup l u).isSome = true ↔ u ∈ l.map Prod.fst := by
  induction l with
  | nil => simp [dlookup]
  | cons p rest ih =>
      obtain ⟨k', b'⟩ := p
      by_cases h : k' = u
      · simp [dlookup, h]
      · simp only [dlookup, if_neg h, List.map_cons, List.mem_cons]
        rw [ih]
        constructor
        · intro hm
          exact Or.inr hm
        · intro hm
          rcases hm with hm | hm
          · exact absurd hm.symm h
          · exact hm

lemma count0_le_length (l : List (V × Nat)) : count0 l ≤ l.length := by
  induction l with
  | nil => simp [count0]
  | cons p rest ih =>
      simp only [count0, List.length_cons]
      split <;> omega

lemma count0_dset_pos (l : List (V × Nat)) (k : V) (b : Nat) (hb : b ≠ 0) :
    count0 (dset l k b) ≤ count0 l := by
  induction l with
  | nil => simp [dset, count0, hb]
  | cons p rest ih =>
      obtain ⟨k', b'⟩ := p
      by_cases h : k' = k
      · simp only [dset, h, if_pos rfl, count0]
        split <;> split <;> omega
      · simp only [dset, if_neg h, count0]
        omega

lemma count0_dset_of_zero (l : List (V × Nat)) (k : V)
    (h : dlookup l k = some 0) : count0 (dset l k 1) + 1 = count0 l := by
  induction l with
  | nil => simp [dlookup] at h
  | cons p rest ih =>
      obtain ⟨k', b'⟩ := p
      by_cases hk : k' = k
      · subst hk
        simp [dlookup] at h
        simp only [dset, if_pos rfl, count0, h]
        simp [Nat.add_comm]
      · simp [dlookup, hk] at h
        simp only [dset, if_neg hk, count0]
        have := ih h
        omega

lemma getD_dset (l : List (V × Nat)) (k u : V) (b : Nat) :
    (dlookup (dset l k b) u).getD 0 = if k = u then b else (dlookup l u).getD 0 := by
  by_cases h : k = u
  · subst h; simp [dlookup_dset_self]
  · simp [h, dlookup_dset_ne l k u b (Ne.symm h)]

lemma stateOf_markStep (s : DfsState V) (v u : V) :
    stateOf (markStep v s) u = if v = u then 1 else stateOf s u := by
  simp [markStep, stateOf, getD_dset]

lemma stateOf_finishStep (s : DfsState V) (v u : V) :
    stateOf (finishStep v s) u = if v = u then 2 else stateOf s u := by
  simp [finishStep, stateOf, getD_dset]

lemma markStep_adj (s : DfsState V) (v : V) : (markStep v s).adj = s.adj := rfl

lemma finishStep_adj (s : DfsState V) (v : V) : (finishStep v s).adj = s.adj := rfl

lemma dfs_zero (v : V) (s : DfsState V) : dfs 0 v s = s := rfl

lemma dfs_succ_one {s : DfsState V} {v : V} (n : Nat) (h : stateOf s v = 1) :
    dfs (n + 1) v s = { s with isDag := false } := by
  simp [dfs, h]

lemma dfs_succ_two {s : DfsState V} {v : V} (n : Nat) (h : stateOf s v = 2) :
    dfs (n + 1) v s = s := by
  simp [dfs, h]

lemma dfs_succ_go {s : DfsState V} {v : V} (n : Nat)
    (h1 : stateOf s v ≠ 1) (h2 : stateOf s v ≠ 2) :
    dfs (n + 1) v s = finishStep v (dfsList n ((dlookup s.adj v).getD []) (markStep v s)) := by
  simp [dfs, h1, h2, dfsList]

lemma dfsList_nil (fuel : Nat) (s : DfsState V) : dfsList fuel [] s = s := rfl

lemma dfsList_cons (fuel : Nat) (w : V) (ws : List V) (s : DfsState V) :
    dfsList fuel (w :: ws) s = dfsList fuel ws (dfs fuel w s) := rfl

lemma dfsList_pres {P : DfsState V → Prop} {fuel : Nat}
    (h : ∀ w t, P t → P (dfs fuel w t)) :
    ∀ l s, P s → P (dfsList fuel l s) := by
  intro l
  induction l with
  | nil => intro s hs; exact hs
  | cons w ws ih =>
      intro s hs
      rw [dfsList_cons]
      exact ih _ (h _ _ hs)

lemma dfsList_back {P : DfsState V → Prop} {fuel : Nat}
    (h : ∀ w t, P (dfs fuel w t) → P t) :
    ∀ l s, P (dfsList fuel l s) → P s := by
  intro l
  induction l with
  | nil => intro s hs; exact hs
  | cons w ws ih =>
      intro s hs
      rw [dfsList_cons] at hs
      exact h _ _ (ih _ hs)

lemma dfs_adj : ∀ (fuel : Nat) (v : V) (s : DfsState V), (dfs fuel v s).adj = s.adj := by
  intro fuel
  induction fuel with
  | zero => intro v s; rfl
  | succ n ih =>
      intro v s
      by_cases h1 : stateOf s v = 1
      · rw [dfs_succ_one n h1]
      · by_cases h2 : stateOf s v = 2
        · rw [dfs_succ_two n h2]
        · rw [dfs_succ_go n h1 h2, finishStep_adj]
          exact dfsList_pres (fun w t ht => (ih w t).trans ht) _ _ (markStep_adj s v)

lemma dfs_order_extend : ∀ (fuel : Nat) (v : V) (s : DfsState V),
    ∃ p, (dfs fuel v s).order = p ++ s.order := by
  intro fuel
  induction fuel with
  | zero => intro v s; exact ⟨[], rfl⟩
  | succ n ih =>
      intro v s
      by_cases h1 : stateOf s v = 1
      · rw [dfs_succ_one n h1]; exact ⟨[], rfl⟩
      · by_cases h2 : stateOf s v = 2
        · rw [dfs_succ_two n h2]; exact ⟨[], rfl⟩
        · rw [dfs_succ_go n h1 h2]
          have hfold : ∃ p, (dfsList n ((dlookup s.adj v).getD []) (markStep v s)).order
              = p ++ s.order := by
            refine dfsList_pres (P := fun x => ∃ p, x.order = p ++ s.order) ?_ _ _ ⟨[], rfl⟩
            intro w t ht
            obtain ⟨p, hp⟩ := ht
            obtain ⟨q, hq⟩ := ih w t
            exact ⟨q ++ p, by rw [hq, hp, List.append_assoc]⟩
          obtain ⟨p, hp⟩ := hfold
          exact ⟨v :: p, by simp [finishStep, hp]⟩

lemma dfs_isDag_false : ∀ (fuel : Nat) (v : V) (s : DfsState V),
    s.isDag = false → (dfs fuel v s).isDag = false := by
  intro fuel
  induction fuel with
  | zero => intro v s hs; exact hs
  | succ n ih =>
      intro v s hs
      by_cases h1 : stateOf s v = 1
      · rw [dfs_succ_one n h1]
      · by_cases h2 : stateOf s v = 2
        · rw [dfs_succ_two n h2]; exact hs
        · rw [dfs_succ_go n h1 h2]
          show (dfsList n _ (markStep v s)).isDag = false
          exact dfsList_pres (P := fun x => x.isDag = false)
            (fun w t ht => ih w t ht) _ _ hs

lemma dfs_state1_frozen : ∀ (fuel : Nat) (v : V) (s : DfsState V) (u : V),
    stateOf s u = 1 → stateOf (dfs fuel v s) u = 1 := by
  intro fuel
  induction fuel with
  | zero => intro v s u hu; exact hu
  | succ n ih =>
      intro v s u hu
      by_cases h1 : stateOf s v = 1
      · rw [dfs_succ_one n h1]; exact hu
      · by_cases h2 : stateOf s v = 2
        · rw [dfs_succ_two n h2]; exact hu
        · have hvu : v ≠ u := fun h => h1 (h ▸ hu)
          rw [dfs_succ_go n h1 h2, stateOf_finishStep, if_neg hvu]
          refine dfsList_pres (P := fun x => stateOf x u = 1)
            (fun w t ht => ih w t u ht) _ _ ?_
          show stateOf (markStep v s) u = 1
          rw [stateOf_markStep, if_neg hvu]
          exact hu

lemma dfs_state2_frozen : ∀ (fuel : Nat) (v : V) (s : DfsState V) (u : V),
    stateOf s u = 2 → stateOf (dfs fuel v s) u = 2 := by
  intro fuel
  induction fuel with
  | zero => intro v s u hu; exact hu
  | succ n ih =>
      intro v s u hu
      by_cases h1 : stateOf s v = 1
      · rw [dfs_succ_one n h1]; exact hu
      · by_cases h2 : stateOf s v = 2
        · rw [dfs_succ_two n h2]; exact hu
        · have hvu : v ≠ u := fun h => h2 (h ▸ hu)
          rw [dfs_succ_go n h1 h2, stateOf_finishStep, if_neg hvu]
          refine dfsList_pres (P := fun x => stateOf x u = 2)
            (fun w t ht => ih w t u ht) _ _ ?_
          show stateOf (markStep v s) u = 2
          rw [stateOf_markStep, if_neg hvu]
          exact hu

lemma dfs_state1_back : ∀ (fuel : Nat) (v : V) (s : DfsState V) (u : V),
    stateOf (dfs fuel v s) u = 1 → stateOf s u = 1 := by
  intro fuel
  induction fuel with
  | zero => intro v s u hu; exact hu
  | succ n ih =>
      intro v s u hu
      by_cases h1 : stateOf s v = 1
      · rwa [dfs_succ_one n h1] at hu
      · by_cases h2 : stateOf s v = 2
        · rwa [dfs_succ_two n h2] at hu
        · rw [dfs_succ_go n h1 h2, stateOf_finishStep] at hu
          by_cases hvu : v = u
          · rw [if_pos hvu] at hu
            exact absurd hu (by decide)
          · rw [if_neg hvu] at hu
            have hm : stateOf (markStep v s) u = 1 :=
              dfsList_back (P := fun x => stateOf x u = 1)
                (fun w t ht => ih w t u ht) _ _ hu
            rwa [stateOf_markStep, if_neg hvu] at hm

lemma dfs_count0_le : ∀ (fuel : Nat) (v : V) (s : DfsState V),
    count0 (dfs fuel v s).visit ≤ count0 s.visit := by
  intro fuel
  induction fuel with
  | zero => intro v s; exact le_refl _
  | succ n ih =>
      intro v s
      by_cases h1 : stateOf s v = 1
      · rw [dfs_succ_one n h1]
      · by_cases h2 : stateOf s v = 2
        · rw [dfs_succ_two n h2]
        · rw [dfs_succ_go n h1 h2]
          have hfold : count0 (dfsList n ((dlookup s.adj v).getD []) (markStep v s)).visit
              ≤ count0 (markStep v s).visit := by
            refine dfsList_pres (P := fun x => count0 x.visit ≤ count0 (markStep v s).visit)
              ?_ _ _ (le_refl _)
            intro w t ht
            exact le_trans (ih w t) ht
          calc count0 (finishStep v (dfsList n _ (markStep v s))).visit
              ≤ count0 (dfsList n ((dlookup s.adj v).getD []) (markStep v s)).visit :=
                count0_dset_pos _ v 2 (by decide)
            _ ≤ count0 (markStep v s).visit := hfold
            _ ≤ count0 s.visit := count0_dset_pos _ v 1 (by decide)

lemma dlookup_mem {β : Type} (l : List (V × β)) (u : V) (b : β)
    (h : dlookup l u = some b) : (u, b) ∈ l := by
  induction l with
  | nil => simp [dlookup] at h
  | cons p rest ih =>
      obtain ⟨k', b'⟩ := p
      by_cases hk : k' = u
      · subst hk
        simp [dlookup] at h
        simp [h]
      · simp [dlookup, hk] at h
        simp [ih h]

lemma mem_dset {β : Type} (l : List (V × β)) (k : V) (b : β) (p : V × β)
    (hp : p ∈ dset l k b) : p = (k, b) ∨ p ∈ l := by
  induction l with
  | nil =>
      simp [dset] at hp
      left
      exact hp
  | cons q rest ih =>
      obtain ⟨k', b'⟩ := q
      by_cases h : k' = k
      · simp [dset, h] at hp
        rcases hp with hp | hp
        · left
          simp [hp]
        · right
          simp [hp]
      · simp [dset, h] at hp
        rcases hp with hp | hp
        · right
          simp [hp]
        · rcases ih hp with h' | h'
          · left
            exact h'
          · right
            simp [h']

lemma idxOf_cons_self (a : V) (l : List V) : idxOf (a :: l) a = 0 := by
  simp [idxOf]

lemma idxOf_cons_ne {x a : V} (l : List V) (h : x ≠ a) :
    idxOf (x :: l) a = idxOf l a + 1 := by
  simp [idxOf, h]

/-- The invariant of the traversal state: the adjacency list is closed and
duplicate-free in its keys, `visit_state` has exactly the adjacency keys with
values in 0..2, the output contains exactly the finished vertices (each once),
and — as long as the `is_dag` flag still holds — every successor of an output
vertex is already in the output at a strictly larger index. -/
structure Inv (s : DfsState V) : Prop where
  closed : Closed s.adj
  adjKeysNodup : (s.adj.map Prod.fst).Nodup
  visitKeys : s.visit.map Prod.fst = s.adj.map Prod.fst
  statesValid : ∀ p, p ∈ s.visit → p.2 = 0 ∨ p.2 = 1 ∨ p.2 = 2
  orderMem : ∀ u, u ∈ s.order ↔ stateOf s u = 2
  orderNodup : s.order.Nodup
  sorted : s.isDag = true → ∀ u l, u ∈ s.order → dlookup s.adj u = some l →
    ∀ w, w ∈ l → w ∈ s.order ∧ idxOf s.order u < idxOf s.order w

lemma dfsList_main {n : Nat}
    (H : ∀ (v : V) (s : DfsState V),
      Inv s → containsKey s.adj v = true → count0 s.visit + 1 ≤ n →
      Inv (dfs n v s) ∧ (stateOf s v = 1 ∨ stateOf (dfs n v s) v = 2)) :
    ∀ (l : List V) (s : DfsState V), Inv s → (∀ w, w ∈ l → containsKey s.adj w = true) →
      count0 s.visit + 1 ≤ n →
      Inv (dfsList n l s) ∧
        (∀ w, w ∈ l → stateOf (dfsList n l s) w = 2 ∨ (dfsList n l s).isDag = false) := by
  intro l
  induction l with
  | nil =>
      intro s hInv _ _
      exact ⟨hInv, fun w hw => absurd hw (List.not_mem_nil w)⟩
  | cons w ws ihl =>
      intro s hInv hkeys hfuel
      rw [dfsList_cons]
      have hw : containsKey s.adj w = true := hkeys w (List.mem_cons_self w ws)
      obtain ⟨hInvT, hcomp⟩ := H w s hInv hw hfuel
      have hadjT : (dfs n w s).adj = s.adj := dfs_adj n w s
      have hkeysT : ∀ x, x ∈ ws → containsKey (dfs n w s).adj x = true := by
        rw [hadjT]
        exact fun x hx => hkeys x (List.mem_cons_of_mem w hx)
      have hfuelT : count0 (dfs n w s).visit + 1 ≤ n := by
        have := dfs_count0_le n w s
        omega
      obtain ⟨hInvR, hstatesR⟩ := ihl (dfs n w s) hInvT hkeysT hfuelT
      refine ⟨hInvR, ?_⟩
      intro x hx
      rcases List.mem_cons.mp hx with rfl | hx'
      · rcases hcomp with h1w | h2w
        · right
          have hfalse : (dfs n x s).isDag = false := by
            obtain ⟨m, rfl⟩ : ∃ m, n = m + 1 := ⟨n - 1, by omega⟩
            rw [dfs_succ_one m h1w]
          exact dfsList_pres (P := fun t => t.isDag = false)
            (fun a b hb => dfs_isDag_false n a b hb) ws _ hfalse
        · left
          exact dfsList_pres (P := fun t => stateOf t x = 2)
            (fun a b hb => dfs_state2_frozen n a b x hb) ws _ h2w
      · exact hstatesR x hx'

lemma dfs_main : ∀ (fuel : Nat) (v : V) (s : DfsState V),
    Inv s → containsKey s.adj v = true → count0 s.visit + 1 ≤ fuel →
    Inv (dfs fuel v s) ∧ (stateOf s v = 1 ∨ stateOf (dfs fuel v s) v = 2) := by
  intro fuel
  induction fuel with
  | zero =>
      intro v s _ _ hfuel
      omega
  | succ n ih =>
      intro v s hInv hkey hfuel
      by_cases h1 : stateOf s v = 1
      · rw [dfs_succ_one n h1]
        refine ⟨?_, Or.inl h1⟩
        exact {
          closed := hInv.closed
          adjKeysNodup := hInv.adjKeysNodup
          visitKeys := hInv.visitKeys
          statesValid := hInv.statesValid
          orderMem := hInv.orderMem
          orderNodup := hInv.orderNodup
          sorted := fun h => absurd h (by simp) }
      · by_cases h2 : stateOf s v = 2
        · rw [dfs_succ_two n h2]
          exact ⟨hInv, Or.inr h2⟩
        · have hvmem : v ∈ s.visit.map Prod.fst := by
            rw [hInv.visitKeys]
            exact (dlookup_isSome_iff s.adj v).mp hkey
          have hvsome : (dlookup s.visit v).isSome = true :=
            (dlookup_isSome_iff s.visit v).mpr hvmem
          obtain ⟨val, hval⟩ := Option.isSome_iff_exists.mp hvsome
          have hstv : stateOf s v = val := by simp [stateOf, hval]
          have hval0 : val = 0 := by
            rcases hInv.statesValid (v, val) (dlookup_mem s.visit v val hval) with h | h | h
            · exact h
            · exact absurd (hstv.trans h) h1
            · exact absurd (hstv.trans h) h2
          have hv0 : dlookup s.visit v = some 0 := hval0 ▸ hval
          obtain ⟨succs, hsuccs⟩ :=
            Option.isSome_iff_exists.mp (show (dlookup s.adj v).isSome = true from hkey)
          have hsubkeys : ∀ w, w ∈ succs → containsKey s.adj w = true :=
            fun w hw => hInv.closed v succs hsuccs w hw
          have hInv1 : Inv (markStep v s) := {
            closed := hInv.closed
            adjKeysNodup := hInv.adjKeysNodup
            visitKeys := by
              show (dset s.visit v 1).map Prod.fst = s.adj.map Prod.fst
              rw [mapfst_dset s.visit v 1 hvmem, hInv.visitKeys]
            statesValid := by
              intro p hp
              rcases mem_dset s.visit v 1 p hp with h | h
              · right; left; rw [h]
              · exact hInv.statesValid p h
            orderMem := by
              intro u
              show u ∈ s.order ↔ stateOf (markStep v s) u = 2
              rw [stateOf_markStep]
              by_cases hvu : v = u
              · subst hvu
                rw [if_pos rfl]
                constructor
                · intro hmem
                  have h2' := (hInv.orderMem v).mp hmem
                  exfalso
                  omega
                · intro h12
                  exact absurd h12 (by decide)
              · rw [if_neg hvu]
                exact hInv.orderMem u
            orderNodup := hInv.orderNodup
            sorted := hInv.sorted }
          have hfuel1 : count0 (markStep v s).visit + 1 ≤ n := by
            have hc : count0 (dset s.visit v 1) + 1 = count0 s.visit :=
              count0_dset_of_zero s.visit v hv0
            show count0 (dset s.visit v 1) + 1 ≤ n
            omega
          have hkeys1 : ∀ w, w ∈ succs → containsKey (markStep v s).adj w = true := hsubkeys
          obtain ⟨hInv2, hstates2⟩ := dfsList_main ih succs (markStep v s) hInv1 hkeys1 hfuel1
          rw [dfs_succ_go n h1 h2]
          simp only [hsuccs, Option.getD_some]
          set s2 := dfsList n succs (markStep v s) with hs2
          have hadj2 : s2.adj = s.adj := by
            rw [hs2]
            exact dfsList_pres (P := fun t => t.adj = s.adj)
              (fun a b hb => (dfs_adj n a b).trans hb) succs _ rfl
          have hstate1v : stateOf s2 v = 1 := by
            rw [hs2]
            refine dfsList_pres (P := fun t => stateOf t v = 1)
              (fun a b hb => dfs_state1_frozen n a b v hb) succs _ ?_
            show stateOf (markStep v s) v = 1
            rw [stateOf_markStep, if_pos rfl]
          have hvnot2 : v ∉ s2.order := by
            intro hmem
            have h2' := (hInv2.orderMem v).mp hmem
            omega
          constructor
          · have hvmem2 : v ∈ s2.visit.map Prod.fst := by
              rw [hInv2.visitKeys, hadj2]
              exact (dlookup_isSome_iff s.adj v).mp hkey
            exact {
              closed := by
                show Closed (finishStep v s2).adj
                rw [finishStep_adj, hadj2]
                exact hInv.closed
              adjKeysNodup := by
                show ((finishStep v s2).adj.map Prod.fst).Nodup
                rw [finishStep_adj, hadj2]
                exact hInv.adjKeysNodup
              visitKeys := by
                show (dset s2.visit v 2).map Prod.fst = s2.adj.map Prod.fst
                rw [mapfst_dset s2.visit v 2 hvmem2, hInv2.visitKeys]
              statesValid := by
                intro p hp
                rcases mem_dset s2.visit v 2 p hp with h | h
                · right; right; rw [h]
                · exact hInv2.statesValid p h
              orderMem := by
                intro u
                show u ∈ v :: s2.order ↔ stateOf (finishStep v s2) u = 2
                rw [stateOf_finishStep]
                by_cases hvu : v = u
                · subst hvu
                  simp
                · rw [if_neg hvu]
                  simp only [List.mem_cons]
                  constructor
                  · intro h
                    rcases h with h | h
                    · exact absurd h (fun hh => hvu hh.symm)
                    · exact (hInv2.orderMem u).mp h
                  · intro h
                    exact Or.inr ((hInv2.orderMem u).mpr h)
              orderNodup := by
                show (v :: s2.order).Nodup
                exact List.nodup_cons.mpr ⟨hvnot2, hInv2.orderNodup⟩
              sorted := by
                intro hd u l' hu hlu w hw
                have hd2 : s2.isDag = true := hd
                have hlu' : dlookup s.adj u = some l' := by
                  rw [← hadj2]
                  exact hlu
                rcases List.mem_cons.mp hu with rfl | humem
                · have hl'eq : l' = succs := by
                    rw [hsuccs] at hlu'
                    exact (Option.some_inj.mp hlu').symm
                  subst hl'eq
                  rcases hstates2 w hw with h2w | hfalse
                  · have hwmem : w ∈ s2.order := (hInv2.orderMem w).mpr h2w
                    have hwv : u ≠ w := fun h => hvnot2 (h ▸ hwmem)
                    refine ⟨List.mem_cons_of_mem u hwmem, ?_⟩
                    show idxOf (u :: s2.order) u < idxOf (u :: s2.order) w
                    rw [idxOf_cons_self, idxOf_cons_ne s2.order hwv]
                    omega
                  · rw [hd2] at hfalse
                    exact absurd hfalse (by simp)
                · have hres := hInv2.sorted hd2 u l' humem (by rw [hadj2]; exact hlu') w hw
                  obtain ⟨hwmem, hidx⟩ := hres
                  have huv : v ≠ u := fun h => hvnot2 (h ▸ humem)
                  have hwv : v ≠ w := fun h => hvnot2 (h ▸ hwmem)
                  refine ⟨List.mem_cons_of_mem v hwmem, ?_⟩
                  show idxOf (v :: s2.order) u < idxOf (v :: s2.order) w
                  rw [idxOf_cons_ne s2.order huv, idxOf_cons_ne s2.order hwv]
                  omega }
          · right
            show stateOf (finishStep v s2) v = 2
            rw [stateOf_finishStep, if_pos rfl]

lemma dlookup_initVisit_val (g : AdjList V) (u : V) (b : Nat)
    (h : dlookup (initVisit g) u = some b) : b = 0 := by
  have hm := dlookup_mem (initVisit g) u b h
  simp only [initVisit] at hm
  obtain ⟨a, _, heq⟩ := List.mem_map.mp hm
  have := congrArg Prod.snd heq
  simpa using this.symm

lemma stateOf_init (g : AdjList V) (u : V) :
    stateOf { adj := g, visit := initVisit g, order := [], isDag := true } u = 0 := by
  show (dlookup (initVisit g) u).getD 0 = 0
  cases hl : dlookup (initVisit g) u with
  | none => rfl
  | some b => simp [dlookup_initVisit_val g u b hl]

lemma init_inv (g : AdjList V) (hc : Closed g) (hn : (g.map Prod.fst).Nodup) :
    Inv { adj := g, visit := initVisit g, order := [], isDag := true } := {
  closed := hc
  adjKeysNodup := hn
  visitKeys := by
    show (initVisit g).map Prod.fst = g.map Prod.fst
    simp [initVisit, List.map_map]
  statesValid := by
    intro p hp
    left
    simp only [initVisit] at hp
    obtain ⟨a, _, heq⟩ := List.mem_map.mp hp
    have := congrArg Prod.snd heq
    simpa using this.symm
  orderMem := by
    intro u
    rw [stateOf_init]
    simp
  orderNodup := List.nodup_nil
  sorted := fun _ u l hu => absurd hu (List.not_mem_nil u) }

lemma stateOf_two_of_ne_zero (s : DfsState V) (hInv : Inv s) (h1 : ∀ u, stateOf s u ≠ 1)
    (v : V) (h0 : stateOf s v ≠ 0) : stateOf s v = 2 := by
  cases hl : dlookup s.visit v with
  | none => exact absurd (by simp [stateOf, hl]) h0
  | some b =>
      have hb : stateOf s v = b := by simp [stateOf, hl]
      rcases hInv.statesValid (v, b) (dlookup_mem s.visit v b hl) with h | h | h
      · exact absurd (hb.trans h) h0
      · exact absurd (hb.trans h) (h1 v)
      · exact hb.trans h

lemma topoFold (fuel : Nat) (g : AdjList V) :
    ∀ (ks : List V) (s : DfsState V),
      Inv s → s.adj = g →
      (∀ v, v ∈ ks → containsKey g v = true) →
      (∀ u, stateOf s u ≠ 1) →
      g.length + 1 ≤ fuel →
      Inv (ks.foldl (topoStep fuel) s) ∧
      (ks.foldl (topoStep fuel) s).adj = g ∧
      (∀ u, stateOf (ks.foldl (topoStep fuel) s) u ≠ 1) ∧
      (∀ u, stateOf s u = 2 → stateOf (ks.foldl (topoStep fuel) s) u = 2) ∧
      (∀ v, v ∈ ks → stateOf (ks.foldl (topoStep fuel) s) v = 2) := by
  intro ks
  induction ks with
  | nil =>
      intro s hInv hadj _ h1s _
      exact ⟨hInv, hadj, h1s, fun _ h => h, fun v hv => absurd hv (List.not_mem_nil v)⟩
  | cons v ks ihk =>
      intro s hInv hadj hks h1s hfuel
      rw [List.foldl_cons]
      have hkeyv : containsKey s.adj v = true := by
        rw [hadj]
        exact hks v (List.mem_cons_self v ks)
      have hstep : Inv (topoStep fuel s v) ∧ (topoStep fuel s v).adj = g ∧
          (∀ u, stateOf (topoStep fuel s v) u ≠ 1) ∧
          (∀ u, stateOf s u = 2 → stateOf (topoStep fuel s v) u = 2) ∧
          stateOf (topoStep fuel s v) v = 2 := by
        by_cases h0 : stateOf s v = 0
        · have ht : topoStep fuel s v = dfs fuel v s := by simp [topoStep, h0]
          have hcount : count0 s.visit + 1 ≤ fuel := by
            have hlen : s.visit.length = g.length := by
              have hl := congrArg List.length hInv.visitKeys
              simp only [List.length_map] at hl
              rw [hadj] at hl
              exact hl
            have := count0_le_length s.visit
            omega
          obtain ⟨hInvT, hdisj⟩ := dfs_main fuel v s hInv hkeyv hcount
          have h2v : stateOf (dfs fuel v s) v = 2 := by
            rcases hdisj with h | h
            · exfalso
              omega
            · exact h
          rw [ht]
          refine ⟨hInvT, ?_, ?_, ?_, h2v⟩
          · rw [dfs_adj fuel v s]
            exact hadj
          · intro u hu
            exact h1s u (dfs_state1_back fuel v s u hu)
          · intro u hu
            exact dfs_state2_frozen fuel v s u hu
        · have ht : topoStep fuel s v = s := by simp [topoStep, h0]
          rw [ht]
          exact ⟨hInv, hadj, h1s, fun _ h => h, stateOf_two_of_ne_zero s hInv h1s v h0⟩
      obtain ⟨hI, hA, h1, h2f, h2v⟩ := hstep
      obtain ⟨fI, fA, f1, f2f, fks⟩ :=
        ihk (topoStep fuel s v) hI hA (fun x hx => hks x (List.mem_cons_of_mem v hx)) h1 hfuel
      refine ⟨fI, fA, f1, ?_, ?_⟩
      · intro u hu
        exact f2f u (h2f u hu)
      · intro x hx
        rcases List.mem_cons.mp hx with rfl | hx'
        · exact f2f x h2v
        · exact fks x hx'

lemma topoRunWith_spec (fuel : Nat) (g : AdjList V) (hc : Closed g)
    (hn : (g.map Prod.fst).Nodup) (hfuel : g.length + 1 ≤ fuel) :
    Inv (topoRunWith fuel g) ∧ (topoRunWith fuel g).adj = g ∧
      (∀ v, v ∈ keys g → stateOf (topoRunWith fuel g) v = 2) := by
  have hI := init_inv g hc hn
  have h1s : ∀ u,
      stateOf { adj := g, visit := initVisit g, order := [], isDag := true } u ≠ 1 := by
    intro u
    rw [stateOf_init]
    simp
  have hks : ∀ v, v ∈ keys g → containsKey g v = true := by
    intro v hv
    exact (dlookup_isSome_iff g v).mpr hv
  obtain ⟨a, b, _, _, e⟩ := topoFold fuel g (keys g) _ hI rfl hks h1s hfuel
  exact ⟨a, b, e⟩

lemma topoRun_spec (g : AdjList V) (hc : Closed g) (hn : (g.map Prod.fst).Nodup) :
    Inv (topoRun g) ∧ (topoRun g).adj = g ∧
      (∀ v, v ∈ keys g → stateOf (topoRun g) v = 2) :=
  topoRunWith_spec (g.length + 1) g hc hn (le_refl _)

lemma topoRun_complete (g : AdjList V) (hc : Closed g) (hn : (g.map Prod.fst).Nodup) :
    ∀ u, u ∈ (topoRun g).order ↔ containsKey g u = true := by
  obtain ⟨hI, hA, h2⟩ := topoRun_spec g hc hn
  intro u
  constructor
  · intro hu
    have hst := (hI.orderMem u).mp hu
    cases hl : dlookup (topoRun g).visit u with
    | none =>
        exfalso
        rw [show stateOf (topoRun g) u = 0 from by simp [stateOf, hl]] at hst
        omega
    | some b =>
        have hmem : u ∈ (topoRun g).visit.map Prod.fst := by
          rw [← dlookup_isSome_iff]
          simp [hl]
        rw [hI.visitKeys, hA] at hmem
        exact (dlookup_isSome_iff g u).mpr hmem
  · intro hu
    have hmem : u ∈ keys g := (dlookup_isSome_iff g u).mp hu
    exact (hI.orderMem u).mpr (h2 u hmem)

lemma topoRun_valid (g : AdjList V) (hc : Closed g) (hn : (g.map Prod.fst).Nodup)
    (hd : (topoRun g).isDag = true) :
    ∀ u w, Edge g u w →
      u ∈ (topoRun g).order ∧ w ∈ (topoRun g).order ∧
        idxOf (topoRun g).order u < idxOf (topoRun g).order w := by
  obtain ⟨hI, hA, h2⟩ := topoRun_spec g hc hn
  intro u w he
  obtain ⟨l, hl, hwl⟩ := he
  have hukey : containsKey g u = true := by
    show (dlookup g u).isSome = true
    simp [hl]
  have humem : u ∈ (topoRun g).order := (topoRun_complete g hc hn u).mpr hukey
  have hres := hI.sorted hd u l humem (by rw [hA]; exact hl) w hwl
  exact ⟨humem, hres.1, hres.2⟩

lemma topoRun_reach_idx (g : AdjList V) (hc : Closed g) (hn : (g.map Prod.fst).Nodup)
    (hd : (topoRun g).isDag = true) :
    ∀ u w, Reach g u w → idxOf (topoRun g).order u < idxOf (topoRun g).order w := by
  intro u w hr
  induction hr with
  | single he => exact (topoRun_valid g hc hn hd _ _ he).2.2
  | head he _ ih =>
      have h1 := (topoRun_valid g hc hn hd _ _ he).2.2
      omega

lemma topoRun_cycle_false (g : AdjList V) (hc : Closed g) (hn : (g.map Prod.fst).Nodup)
    (hcyc : HasCycle g) : (topoRun g).isDag = false := by
  by_contra hne
  have hd : (topoRun g).isDag = true := by
    cases h : (topoRun g).isDag
    · exact absurd h hne
    · rfl
  obtain ⟨v, hr⟩ := hcyc
  have := topoRun_reach_idx g hc hn hd v v hr
  omega

lemma dlookup_append_some {β : Type} (l1 l2 : List (V × β)) (u : V) (b : β)
    (h : dlookup l1 u = some b) : dlookup (l1 ++ l2) u = some b := by
  induction l1 with
  | nil => simp [dlookup] at h
  | cons p rest ih =>
      obtain ⟨k', b'⟩ := p
      by_cases hk : k' = u
      · simp [dlookup, hk] at h ⊢
        exact h
      · simp [dlookup, hk] at h ⊢
        exact ih h

lemma dlookup_append_none {β : Type} (l1 l2 : List (V × β)) (u : V)
    (h : dlookup l1 u = none) : dlookup (l1 ++ l2) u = dlookup l2 u := by
  induction l1 with
  | nil => simp
  | cons p rest ih =>
      obtain ⟨k', b'⟩ := p
      by_cases hk : k' = u
      · simp [dlookup, hk] at h
      · simp [dlookup, hk] at h ⊢
        exact ih h

lemma dlookup_append_cases {β : Type} (l1 l2 : List (V × β)) (u : V) (b : β)
    (h : dlookup (l1 ++ l2) u = some b) :
    dlookup l1 u = some b ∨ (dlookup l1 u = none ∧ dlookup l2 u = some b) := by
  cases hl : dlookup l1 u with
  | none =>
      right
      refine ⟨rfl, ?_⟩
      rw [dlookup_append_none l1 l2 u hl] at h
      exact h
  | some b' =>
      left
      rw [dlookup_append_some l1 l2 u b' hl] at h
      exact h

lemma dlookup_eq_none_of (g : AdjList V) (v : V) (h : containsKey g v = false) :
    dlookup g v = none := by
  cases hl : dlookup g v with
  | none => rfl
  | some b =>
      have h2 : containsKey g v = true := by
        show (dlookup g v).isSome = true
        simp [hl]
      rw [h] at h2
      exact absurd h2 (by simp)

lemma add_vertex_present (g : AdjList V) (v : V) (h : containsKey g v = true) :
    add_vertex g v = g := by
  simp [add_vertex, h]

lemma add_vertex_absent (g : AdjList V) (v : V) (h : containsKey g v = false) :
    add_vertex g v = g ++ [(v, [])] := by
  simp [add_vertex, h]

lemma dlookup_add_vertex_of_some (g : AdjList V) (v u : V) (l : List V)
    (h : dlookup g u = some l) : dlookup (add_vertex g v) u = some l := by
  cases hc : containsKey g v with
  | true => rw [add_vertex_present g v hc]; exact h
  | false => rw [add_vertex_absent g v hc]; exact dlookup_append_some g _ u l h

lemma dlookup_add_vertex_new (g : AdjList V) (v : V) (hv : containsKey g v = false) :
    dlookup (add_vertex g v) v = some [] := by
  rw [add_vertex_absent g v hv, dlookup_append_none g _ v (dlookup_eq_none_of g v hv)]
  simp [dlookup]

lemma dlookup_add_vertex_other (g : AdjList V) (v u : V) (h : u ≠ v) :
    dlookup (add_vertex g v) u = dlookup g u := by
  cases hc : containsKey g v with
  | true => rw [add_vertex_present g v hc]
  | false =>
      rw [add_vertex_absent g v hc]
      cases hl : dlookup g u with
      | some b => exact dlookup_append_some g _ u b hl
      | none =>
          rw [dlookup_append_none g _ u hl]
          simp [dlookup, Ne.symm h]

lemma containsKey_add_vertex_self (g : AdjList V) (v : V) :
    containsKey (add_vertex g v) v = true := by
  cases hc : containsKey g v with
  | true => rw [add_vertex_present g v hc]; exact hc
  | false =>
      show (dlookup (add_vertex g v) v).isSome = true
      rw [dlookup_add_vertex_new g v hc]
      rfl

lemma containsKey_add_vertex_mono (g : AdjList V) (v u : V)
    (h : containsKey g u = true) : containsKey (add_vertex g v) u = true := by
  obtain ⟨l, hl⟩ := Option.isSome_iff_exists.mp (show (dlookup g u).isSome = true from h)
  show (dlookup (add_vertex g v) u).isSome = true
  rw [dlookup_add_vertex_of_some g v u l hl]
  rfl

lemma dlookup_adjAppend (g : AdjList V) (u v w : V) :
    dlookup (adjAppend g u v) w =
      if u = w then (dlookup g w).map (fun l => l ++ [v]) else dlookup g w := by
  induction g with
  | nil =>
      simp only [adjAppend, dlookup]
      split <;> rfl
  | cons p rest ih =>
      obtain ⟨k, succs⟩ := p
      by_cases hk : k = u
      · subst hk
        by_cases hw : k = w
        · subst hw
          simp [adjAppend, dlookup]
        · simp [adjAppend, dlookup, hw, fun h : k = w => hw h]
      · by_cases hw : k = w
        · subst hw
          have huw : ¬ u = k := fun h => hk h.symm
          simp [adjAppend, hk, dlookup, huw]
        · simp [adjAppend, hk, dlookup, hw, ih]

lemma mapfst_adjAppend (g : AdjList V) (u v : V) :
    (adjAppend g u v).map Prod.fst = g.map Prod.fst := by
  induction g with
  | nil => rfl
  | cons p rest ih =>
      obtain ⟨k, succs⟩ := p
      by_cases hk : k = u
      · simp [adjAppend, hk]
      · simp [adjAppend, hk, ih]

lemma containsKey_adjAppend (g : AdjList V) (u v w : V) :
    containsKey (adjAppend g u v) w = containsKey g w := by
  show (dlookup (adjAppend g u v) w).isSome = (dlookup g w).isSome
  rw [dlookup_adjAppend]
  by_cases h : u = w
  · rw [if_pos h]
    cases dlookup g w <;> rfl
  · rw [if_neg h]

lemma add_edge_eq (g : AdjList V) (u v : V) :
    add_edge g u v = adjAppend (add_vertex (add_vertex g u) v) u v := by
  by_cases hu : containsKey g u = true
  · by_cases hv : containsKey g v = true
    · simp [add_edge, hu, hv, add_vertex_present g u hu, add_vertex_present g v hv]
    · have hv' : containsKey g v = false := by simpa using hv
      simp [add_edge, hu, hv', add_vertex_present g u hu]
  · have hu' : containsKey g u = false := by simpa using hu
    by_cases hv : containsKey (add_vertex g u) v = true
    · simp [add_edge, hu', hv, add_vertex_present _ v hv]
    · have hv' : containsKey (add_vertex g u) v = false := by simpa using hv
      simp [add_edge, hu', hv']

lemma keys_add_vertex_absent (g : AdjList V) (v : V) (h : containsKey g v = false) :
    (add_vertex g v).map Prod.fst = g.map Prod.fst ++ [v] := by
  rw [add_vertex_absent g v h]
  simp

lemma not_mem_keys_of_absent (g : AdjList V) (v : V) (h : containsKey g v = false) :
    v ∉ g.map Prod.fst := by
  intro hmem
  have h2 : containsKey g v = true := (dlookup_isSome_iff g v).mpr hmem
  rw [h] at h2
  exact absurd h2 (by simp)

lemma dlookup_add_edge_self (g : AdjList V) (u v : V) :
    dlookup (add_edge g u v) u = some ((dlookup g u).getD [] ++ [v]) := by
  rw [add_edge_eq, dlookup_adjAppend, if_pos rfl]
  cases hu : dlookup g u with
  | some l =>
      have h1 : dlookup (add_vertex g u) u = some l := dlookup_add_vertex_of_some g u u l hu
      have h2 : dlookup (add_vertex (add_vertex g u) v) u = some l :=
        dlookup_add_vertex_of_some _ v u l h1
      simp [h2]
  | none =>
      have hu' : containsKey g u = false := by
        show (dlookup g u).isSome = false
        simp [hu]
      have h1 : dlookup (add_vertex g u) u = some [] := dlookup_add_vertex_new g u hu'
      have h2 : dlookup (add_vertex (add_vertex g u) v) u = some [] :=
        dlookup_add_vertex_of_some _ v u [] h1
      simp [h2]

lemma dlookup_add_edge_other (g : AdjList V) (u v w : V) (hw : w ≠ u) :
    dlookup (add_edge g u v) w = dlookup (add_vertex (add_vertex g u) v) w := by
  rw [add_edge_eq, dlookup_adjAppend, if_neg (Ne.symm hw)]

lemma keys_add_edge_new (g : AdjList V) (u v : V) (hu : containsKey g u = false)
    (hv : containsKey g v = false) (huv : u ≠ v) :
    (add_edge g u v).map Prod.fst = g.map Prod.fst ++ [u, v] := by
  rw [add_edge_eq, mapfst_adjAppend]
  have hv1 : containsKey (add_vertex g u) v = false := by
    show (dlookup (add_vertex g u) v).isSome = false
    rw [dlookup_add_vertex_other g u v (Ne.symm huv), dlookup_eq_none_of g v hv]
    rfl
  rw [keys_add_vertex_absent _ v hv1, keys_add_vertex_absent g u hu]
  simp

lemma closed_nil : Closed ([] : AdjList V) := by
  intro u l h
  simp [dlookup] at h

lemma closed_add_vertex (g : AdjList V) (v : V) (hc : Closed g) :
    Closed (add_vertex g v) := by
  intro u l hl w hw
  cases hck : containsKey g v with
  | true =>
      rw [add_vertex_present g v hck] at hl ⊢
      exact hc u l hl w hw
  | false =>
      rw [add_vertex_absent g v hck] at hl ⊢
      rcases dlookup_append_cases g [(v, [])] u l hl with h | ⟨_, h⟩
      · have hkey := hc u l h w hw
        obtain ⟨lw, hlw⟩ :=
          Option.isSome_iff_exists.mp (show (dlookup g w).isSome = true from hkey)
        show (dlookup (g ++ [(v, [])]) w).isSome = true
        rw [dlookup_append_some g _ w lw hlw]
        rfl
      · have : l = [] := by
          by_cases huv : v = u
          · simp [dlookup, huv] at h
            exact h
          · simp [dlookup, huv] at h
        subst this
        exact absurd hw (List.not_mem_nil w)

lemma closed_add_edge (g : AdjList V) (u v : V) (hc : Closed g) :
    Closed (add_edge g u v) := by
  rw [add_edge_eq]
  have hc2 : Closed (add_vertex (add_vertex g u) v) :=
    closed_add_vertex _ v (closed_add_vertex g u hc)
  have hu2 : containsKey (add_vertex (add_vertex g u) v) u = true :=
    containsKey_add_vertex_mono _ v u (containsKey_add_vertex_self g u)
  have hv2 : containsKey (add_vertex (add_vertex g u) v) v = true :=
    containsKey_add_vertex_self _ v
  intro x l hl w hw
  rw [dlookup_adjAppend] at hl
  rw [containsKey_adjAppend]
  by_cases hx : u = x
  · rw [if_pos hx] at hl
    cases hdl : dlookup (add_vertex (add_vertex g u) v) x with
    | none =>
        rw [hdl] at hl
        simp at hl
    | some l0 =>
        rw [hdl] at hl
        simp at hl
        subst hl
        rcases List.mem_append.mp hw with hw0 | hwv
        · exact hc2 x l0 hdl w hw0
        · have hwv' : w = v := by simpa using hwv
          rw [hwv']
          exact hv2
  · rw [if_neg hx] at hl
    exact hc2 x l hl w hw

lemma nodup_add_vertex (g : AdjList V) (v : V) (hn : (g.map Prod.fst).Nodup) :
    ((add_vertex g v).map Prod.fst).Nodup := by
  cases hck : containsKey g v with
  | true =>
      rw [add_vertex_present g v hck]
      exact hn
  | false =>
      rw [keys_add_vertex_absent g v hck]
      have hv := not_mem_keys_of_absent g v hck
      simp [List.nodup_append, hn, hv]

lemma nodup_add_edge (g : AdjList V) (u v : V) (hn : (g.map Prod.fst).Nodup) :
    ((add_edge g u v).map Prod.fst).Nodup := by
  rw [add_edge_eq, mapfst_adjAppend]
  exact nodup_add_vertex _ v (nodup_add_vertex g u hn)

lemma buildGraph_aux : ∀ (ops : List (Op V)) (g : AdjList V),
    Closed g → (g.map Prod.fst).Nodup →
    Closed (ops.foldl applyOp g) ∧ ((ops.foldl applyOp g).map Prod.fst).Nodup := by
  intro ops
  induction ops with
  | nil =>
      intro g hc hn
      exact ⟨hc, hn⟩
  | cons op ops ih =>
      intro g hc hn
      rw [List.foldl_cons]
      cases op with
      | addV v => exact ih _ (closed_add_vertex g v hc) (nodup_add_vertex g v hn)
      | addE u v => exact ih _ (closed_add_edge g u v hc) (nodup_add_edge g u v hn)

lemma buildGraph_closed (ops : List (Op V)) : Closed (buildGraph ops) :=
  (buildGraph_aux ops [] closed_nil (by simp)).1

lemma buildGraph_nodup (ops : List (Op V)) : ((buildGraph ops).map Prod.fst).Nodup :=
  (buildGraph_aux ops [] closed_nil (by simp)).2

lemma dfs_fuel_irrel : ∀ (n m : Nat) (v : V) (s : DfsState V),
    Inv s → containsKey s.adj v = true →
    count0 s.visit + 1 ≤ n → count0 s.visit + 1 ≤ m →
    dfs n v s = dfs m v s := by
  intro n
  induction n using Nat.strong_induction_on with
  | _ n ihn =>
      intro m v s hInv hkey hn hm
      obtain ⟨n', rfl⟩ : ∃ k, n = k + 1 := ⟨n - 1, by omega⟩
      obtain ⟨m', rfl⟩ : ∃ k, m = k + 1 := ⟨m - 1, by omega⟩
      by_cases h1 : stateOf s v = 1
      · rw [dfs_succ_one n' h1, dfs_succ_one m' h1]
      · by_cases h2 : stateOf s v = 2
        · rw [dfs_succ_two n' h2, dfs_succ_two m' h2]
        · rw [dfs_succ_go n' h1 h2, dfs_succ_go m' h1 h2]
          have hvmem : v ∈ s.visit.map Prod.fst := by
            rw [hInv.visitKeys]
            exact (dlookup_isSome_iff s.adj v).mp hkey
          have hvsome : (dlookup s.visit v).isSome = true :=
            (dlookup_isSome_iff s.visit v).mpr hvmem
          obtain ⟨val, hval⟩ := Option.isSome_iff_exists.mp hvsome
          have hstv : stateOf s v = val := by simp [stateOf, hval]
          have hval0 : val = 0 := by
            rcases hInv.statesValid (v, val) (dlookup_mem s.visit v val hval) with h | h | h
            · exact h
            · exact absurd (hstv.trans h) h1
            · exact absurd (hstv.trans h) h2
          have hv0 : dlookup s.visit v = some 0 := hval0 ▸ hval
          obtain ⟨succs, hsuccs⟩ :=
            Option.isSome_iff_exists.mp (show (dlookup s.adj v).isSome = true from hkey)
          have hsubkeys : ∀ w, w ∈ succs → containsKey s.adj w = true :=
            fun w hw => hInv.closed v succs hsuccs w hw
          have hInv1 : Inv (markStep v s) := {
            closed := hInv.closed
            adjKeysNodup := hInv.adjKeysNodup
            visitKeys := by
              show (dset s.visit v 1).map Prod.fst = s.adj.map Prod.fst
              rw [mapfst_dset s.visit v 1 hvmem, hInv.visitKeys]
            statesValid := by
              intro p hp
              rcases mem_dset s.visit v 1 p hp with h | h
              · right; left; rw [h]
              · exact hInv.statesValid p h
            orderMem := by
              intro u
              show u ∈ s.order ↔ stateOf (markStep v s) u = 2
              rw [stateOf_markStep]
              by_cases hvu : v = u
              · subst hvu
                rw [if_pos rfl]
                constructor
                · intro hmem
                  have h2' := (hInv.orderMem v).mp hmem
                  exfalso
                  omega
                · intro h12
                  exact absurd h12 (by decide)
              · rw [if_neg hvu]
                exact hInv.orderMem u
            orderNodup := hInv.orderNodup
            sorted := hInv.sorted }
          have hc1 : count0 (markStep v s).visit + 1 = count0 s.visit := by
            show count0 (dset s.visit v 1) + 1 = count0 s.visit
            exact count0_dset_of_zero s.visit v hv0
          simp only [hsuccs, Option.getD_some]
          have hfold : ∀ (l : List V) (t : DfsState V), Inv t →
              (∀ w, w ∈ l → containsKey t.adj w = true) →
              count0 t.visit + 1 ≤ n' → count0 t.visit + 1 ≤ m' →
              dfsList n' l t = dfsList m' l t := by
            intro l
            induction l with
            | nil => intro t _ _ _ _; rfl
            | cons w ws ihw =>
                intro t hInvT hkeysT hnT hmT
                rw [dfsList_cons, dfsList_cons]
                have hwk : containsKey t.adj w = true := hkeysT w (List.mem_cons_self w ws)
                have heq : dfs n' w t = dfs m' w t :=
                  ihn n' (by omega) m' w t hInvT hwk hnT hmT
                rw [← heq]
                obtain ⟨hInvT', _⟩ := dfs_main n' w t hInvT hwk hnT
                have hadjT' : (dfs n' w t).adj = t.adj := dfs_adj n' w t
                have hcT' := dfs_count0_le n' w t
                exact ihw (dfs n' w t) hInvT'
                  (by rw [hadjT']; exact fun x hx => hkeysT x (List.mem_cons_of_mem w hx))
                  (by omega) (by omega)
          have hgo := hfold succs (markStep v s) hInv1 hsubkeys (by omega) (by omega)
          rw [hgo]

lemma topoFold_fuel (fuel1 fuel2 : Nat) (g : AdjList V)
    (h1 : g.length + 1 ≤ fuel1) (h2 : g.length + 1 ≤ fuel2) :
    ∀ (ks : List V) (s : DfsState V), Inv s → s.adj = g →
      (∀ v, v ∈ ks → containsKey g v = true) →
      ks.foldl (topoStep fuel1) s = ks.foldl (topoStep fuel2) s := by
  intro ks
  induction ks with
  | nil => intro s _ _ _; rfl
  | cons v ks ihk =>
      intro s hInv hadj hks
      rw [List.foldl_cons, List.foldl_cons]
      have hkeyv : containsKey s.adj v = true := by
        rw [hadj]
        exact hks v (List.mem_cons_self v ks)
      have hcount : count0 s.visit + 1 ≤ g.length + 1 := by
        have hlen : s.visit.length = g.length := by
          have hl := congrArg List.length hInv.visitKeys
          simp only [List.length_map] at hl
          rw [hadj] at hl
          exact hl
        have := count0_le_length s.visit
        omega
      have hstep : topoStep fuel1 s v = topoStep fuel2 s v := by
        by_cases h0 : stateOf s v = 0
        · show (if stateOf s v = 0 then dfs fuel1 v s else s)
            = (if stateOf s v = 0 then dfs fuel2 v s else s)
          rw [if_pos h0, if_pos h0]
          exact dfs_fuel_irrel fuel1 fuel2 v s hInv hkeyv (by omega) (by omega)
        · show (if stateOf s v = 0 then dfs fuel1 v s else s)
            = (if stateOf s v = 0 then dfs fuel2 v s else s)
          rw [if_neg h0, if_neg h0]
      rw [hstep]
      by_cases h0 : stateOf s v = 0
      · have ht : topoStep fuel2 s v = dfs fuel2 v s := by simp [topoStep, h0]
        rw [ht]
        obtain ⟨hInvT, _⟩ := dfs_main fuel2 v s hInv hkeyv (by omega)
        exact ihk (dfs fuel2 v s) hInvT
          (by rw [dfs_adj fuel2 v s]; exact hadj)
          (fun x hx => hks x (List.mem_cons_of_mem v hx))
      · have ht : topoStep fuel2 s v = s := by simp [topoStep, h0]
        rw [ht]
        exact ihk s hInv hadj (fun x hx => hks x (List.mem_cons_of_mem v hx))

lemma topoRunWith_fuel_irrel (g : AdjList V) (hc : Closed g)
    (hn : (g.map Prod.fst).Nodup) (fuel : Nat) (hfuel : g.length + 1 ≤ fuel) :
    topoRunWith fuel g = topoRun g := by
  have hI := init_inv g hc hn
  have hks : ∀ v, v ∈ keys g → containsKey g v = true := by
    intro v hv
    exact (dlookup_isSome_iff g v).mpr hv
  exact topoFold_fuel fuel (g.length + 1) g hfuel (le_refl _) (keys g) _ hI rfl hks

lemma re_add_vertex_eq (g : AdjList V) (v : V) :
    Reorganized.add_vertex g v = add_vertex g v := rfl

lemma re_add_edge_eq (g : AdjList V) (u v : V) :
    Reorganized.add_edge g u v = add_edge g u v := rfl

lemma re_applyOp_eq (g : AdjList V) (op : Op V) :
    Reorganized.applyOp g op = applyOp g op := by
  cases op <;> rfl

lemma re_buildGraph_eq (ops : List (Op V)) :
    Reorganized.buildGraph ops = buildGraph ops := by
  show ops.foldl Reorganized.applyOp [] = ops.foldl applyOp []
  have haux : ∀ (l : List (Op V)) (g : AdjList V),
      l.foldl Reorganized.applyOp g = l.foldl applyOp g := by
    intro l
    induction l with
    | nil => intro g; rfl
    | cons op l ih =>
        intro g
        rw [List.foldl_cons, List.foldl_cons, re_applyOp_eq]
        exact ih _
  exact haux ops []

lemma re_dfs_succ_one {s : DfsState V} {v : V} (n : Nat) (h : stateOf s v = 1) :
    Reorganized.dfs (n + 1) v s = { s with isDag := false } := by
  simp [Reorganized.dfs, h]

lemma re_dfs_succ_two {s : DfsState V} {v : V} (n : Nat) (h : stateOf s v = 2) :
    Reorganized.dfs (n + 1) v s = s := by
  simp [Reorganized.dfs, h]

lemma re_dfs_succ_go {s : DfsState V} {v : V} (n : Nat)
    (h1 : stateOf s v ≠ 1) (h2 : stateOf s v ≠ 2) :
    Reorganized.dfs (n + 1) v s = finishStep v
      (((dlookup s.adj v).getD []).foldl (fun t w => Reorganized.dfs n w t) (markStep v s)) := by
  simp [Reorganized.dfs, h1, h2]

lemma re_dfs_eq : ∀ (fuel : Nat) (v : V) (s : DfsState V),
    Reorganized.dfs fuel v s = dfs fuel v s := by
  intro fuel
  induction fuel with
  | zero => intro v s; rfl
  | succ n ih =>
      intro v s
      by_cases h1 : stateOf s v = 1
      · rw [re_dfs_succ_one n h1, dfs_succ_one n h1]
      · by_cases h2 : stateOf s v = 2
        · rw [re_dfs_succ_two n h2, dfs_succ_two n h2]
        · rw [re_dfs_succ_go n h1 h2, dfs_succ_go n h1 h2]
          have hfold : ∀ (l : List V) (t : DfsState V),
              l.foldl (fun t w => Reorganized.dfs n w t) t = dfsList n l t := by
            intro l
            induction l with
            | nil => intro t; rfl
            | cons w ws ihw =>
                intro t
                rw [List.foldl_cons, dfsList_cons, ih w t]
                exact ihw _
          rw [hfold]

lemma re_topoRunWith_eq (fuel : Nat) (g : AdjList V) :
    Reorganized.topoRunWith fuel g = topoRunWith fuel g := by
  show (keys g).foldl (Reorganized.topoStep fuel) _ = (keys g).foldl (topoStep fuel) _
  have haux : ∀ (ks : List V) (s : DfsState V),
      ks.foldl (Reorganized.topoStep fuel) s = ks.foldl (topoStep fuel) s := by
    intro ks
    induction ks with
    | nil => intro s; rfl
    | cons v ks ih =>
        intro s
        rw [List.foldl_cons, List.foldl_cons]
        have hstep : Reorganized.topoStep fuel s v = topoStep fuel s v := by
          show (if stateOf s v = 0 then Reorganized.dfs fuel v s else s)
            = (if stateOf s v = 0 then dfs fuel v s else s)
          rw [re_dfs_eq fuel v s]
        rw [hstep]
        exact ih _
  exact haux (keys g) _

lemma re_topoRun_eq (g : AdjList V) : Reorganized.topoRun g = topoRun g :=
  re_topoRunWith_eq (g.length + 1) g

lemma re_topological_sort_eq (g : AdjList V) :
    Reorganized.topological_sort g = topological_sort g := by
  show (if (Reorganized.topoRun g).isDag then (Reorganized.topoRun g).order else [])
    = (if (topoRun g).isDag then (topoRun g).order else [])
  rw [re_topoRun_eq g]

lemma topological_sort_of_dag (g : AdjList V) (h : (topoRun g).isDag = true) :
    topological_sort g = (topoRun g).order := by
  simp [topological_sort, h]

lemma topological_sort_of_flag_false (g : AdjList V) (h : (topoRun g).isDag = false) :
    topological_sort g = [] := by
  simp [topological_sort, h]

lemma topoFold_adj (fuel : Nat) : ∀ (ks : List V) (s : DfsState V),
    (ks.foldl (topoStep fuel) s).adj = s.adj := by
  intro ks
  induction ks with
  | nil => intro s; rfl
  | cons v ks ih =>
      intro s
      rw [List.foldl_cons]
      rw [ih (topoStep fuel s v)]
      by_cases h0 : stateOf s v = 0
      · show (if stateOf s v = 0 then dfs fuel v s else s).adj = s.adj
        rw [if_pos h0]
        exact dfs_adj fuel v s
      · show (if stateOf s v = 0 then dfs fuel v s else s).adj = s.adj
        rw [if_neg h0]

lemma topoRun_adj (g : AdjList V) : (topoRun g).adj = g := by
  show ((keys g).foldl (topoStep (g.length + 1))
    { adj := g, visit := initVisit g, order := [], isDag := true }).adj = g
  rw [topoFold_adj]

/-- C1: for every graph built by a sequence of `add_vertex`/`add_edge` calls,
if `topological_sort` returns a success sequence (the `is_dag` flag survived the
traversal), then for every stored edge `(u, w)` — duplicates included — the
index of `u` in the returned sequence is strictly smaller than the index of `w`. -/
theorem claim_C1_validity (ops : List (Op V)) (u w : V)
    (hsuccess : (topoRun (buildGraph ops)).isDag = true)
    (he : Edge (buildGraph ops) u w) :
    idxOf (topological_sort (buildGraph ops)) u
      < idxOf (topological_sort (buildGraph ops)) w := by
  have hc := buildGraph_closed ops
  have hn := buildGraph_nodup ops
  rw [topological_sort_of_dag _ hsuccess]
  exact (topoRun_valid _ hc hn hsuccess u w he).2.2

/-- Witness for C1 at the concrete graph with the single edge `0 → 1`. -/
theorem claim_C1_validity_witness :
    (topoRun (buildGraph [Op.addE (0 : Nat) 1])).isDag = true ∧
    Edge (buildGraph [Op.addE (0 : Nat) 1]) 0 1 ∧
    idxOf (topological_sort (buildGraph [Op.addE (0 : Nat) 1])) 0
      < idxOf (topological_sort (buildGraph [Op.addE (0 : Nat) 1])) 1 := by
  have hs : (topoRun (buildGraph [Op.addE (0 : Nat) 1])).isDag = true := by decide
  have he : Edge (buildGraph [Op.addE (0 : Nat) 1]) 0 1 := ⟨[1], by decide, by decide⟩
  exact ⟨hs, he, claim_C1_validity [Op.addE 0 1] 0 1 hs he⟩

/-- C2: for every graph built through the ADT that contains a directed cycle,
`topological_sort` returns the failure signal (the empty list) and never a
vertex sequence — the whole ordering is invalidated, with no truncated result. -/
theorem claim_C2_cycle_all_or_nothing (ops : List (Op V))
    (hcyc : HasCycle (buildGraph ops)) :
    topological_sort (buildGraph ops) = [] := by
  have hc := buildGraph_closed ops
  have hn := buildGraph_nodup ops
  exact topological_sort_of_flag_false _ (topoRun_cycle_false _ hc hn hcyc)

/-- Witness for C2 at the concrete two-vertex cycle `0 → 1 → 0`. -/
theorem claim_C2_cycle_all_or_nothing_witness :
    HasCycle (buildGraph [Op.addE (0 : Nat) 1, Op.addE 1 0]) ∧
    topological_sort (buildGraph [Op.addE (0 : Nat) 1, Op.addE 1 0]) = [] := by
  have he01 : Edge (buildGraph [Op.addE (0 : Nat) 1, Op.addE 1 0]) 0 1 :=
    ⟨[1], by decide, by decide⟩
  have he10 : Edge (buildGraph [Op.addE (0 : Nat) 1, Op.addE 1 0]) 1 0 :=
    ⟨[0], by decide, by decide⟩
  have hcyc : HasCycle (buildGraph [Op.addE (0 : Nat) 1, Op.addE 1 0]) :=
    ⟨0, Reach.head he01 (Reach.single he10)⟩
  exact ⟨hcyc, claim_C2_cycle_all_or_nothing [Op.addE 0 1, Op.addE 1 0] hcyc⟩

/-- C3: for every graph built through the ADT, if `topological_sort` returns a
success sequence then that sequence contains every key of the adjacency mapping
exactly once: it has no duplicates, and membership in it coincides with being a
key. -/
theorem claim_C3_completeness (ops : List (Op V))
    (hsuccess : (topoRun (buildGraph ops)).isDag = true) :
    (topological_sort (buildGraph ops)).Nodup ∧
    (∀ u, u ∈ topological_sort (buildGraph ops) ↔
      containsKey (buildGraph ops) u = true) := by
  have hc := buildGraph_closed ops
  have hn := buildGraph_nodup ops
  rw [topological_sort_of_dag _ hsuccess]
  exact ⟨(topoRun_spec _ hc hn).1.orderNodup, topoRun_complete _ hc hn⟩

/-- Witness for C3 at the concrete graph with the single edge `0 → 1`,
instantiated at vertex `0`. -/
theorem claim_C3_completeness_witness :
    (topoRun (buildGraph [Op.addE (0 : Nat) 1])).isDag = true ∧
    ((0 : Nat) ∈ topological_sort (buildGraph [Op.addE (0 : Nat) 1]) ↔
      containsKey (buildGraph [Op.addE (0 : Nat) 1]) 0 = true) := by
  have hs : (topoRun (buildGraph [Op.addE (0 : Nat) 1])).isDag = true := by decide
  exact ⟨hs, (claim_C3_completeness [Op.addE 0 1] hs).2 0⟩

/-- C4 counterexample: the failure result of a cyclic graph is the very same
value (the empty list) as the success result of the empty graph, so the
cycle-detected result is not distinguishable by the caller from every success
result. -/
theorem claim_C4_counterexample :
    HasCycle (buildGraph [Op.addE (0 : Nat) 1, Op.addE 1 0]) ∧
    (topoRun (buildGraph [Op.addE (0 : Nat) 1, Op.addE 1 0])).isDag = false ∧
    (topoRun (buildGraph ([] : List (Op Nat)))).isDag = true ∧
    topological_sort (buildGraph [Op.addE (0 : Nat) 1, Op.addE 1 0])
      = topological_sort (buildGraph ([] : List (Op Nat))) := by
  have he01 : Edge (buildGraph [Op.addE (0 : Nat) 1, Op.addE 1 0]) 0 1 :=
    ⟨[1], by decide, by decide⟩
  have he10 : Edge (buildGraph [Op.addE (0 : Nat) 1, Op.addE 1 0]) 1 0 :=
    ⟨[0], by decide, by decide⟩
  exact ⟨⟨0, Reach.head he01 (Reach.single he10)⟩, by decide, by decide, by decide⟩

/-- C4 (amended): the failure signal is the empty list, which coincides with
the empty graph's success result; for every built graph with at least one
vertex the empty result occurs exactly when the cycle flag was set, so failure
is distinguishable from success only on nonempty graphs. -/
theorem claim_C4_failure_signal (ops : List (Op V))
    (hne : keys (buildGraph ops) ≠ []) :
    topological_sort (buildGraph ops) = [] ↔
      (topoRun (buildGraph ops)).isDag = false := by
  constructor
  · intro h
    cases hd : (topoRun (buildGraph ops)).isDag with
    | false => rfl
    | true =>
        exfalso
        rw [topological_sort_of_dag _ hd] at h
        obtain ⟨k, hk⟩ : ∃ k, k ∈ keys (buildGraph ops) := by
          cases hkeys : keys (buildGraph ops) with
          | nil => exact absurd hkeys hne
          | cons a l => exact ⟨a, List.mem_cons_self a l⟩
        have hmem := (topoRun_complete _ (buildGraph_closed ops) (buildGraph_nodup ops) k).mpr
          ((dlookup_isSome_iff _ k).mpr hk)
        rw [h] at hmem
        exact absurd hmem (List.not_mem_nil k)
  · intro h
    exact topological_sort_of_flag_false _ h

/-- Witness for the amended C4 at the concrete two-vertex cycle. -/
theorem claim_C4_failure_signal_witness :
    keys (buildGraph [Op.addE (0 : Nat) 1, Op.addE 1 0]) ≠ [] ∧
    (topological_sort (buildGraph [Op.addE (0 : Nat) 1, Op.addE 1 0]) = [] ↔
      (topoRun (buildGraph [Op.addE (0 : Nat) 1, Op.addE 1 0])).isDag = false) :=
  ⟨by decide, claim_C4_failure_signal [Op.addE 0 1, Op.addE 1 0] (by decide)⟩

/-- C5: `topological_sort` is a pure read: the adjacency structure held in the
traversal state after the full run is exactly the input adjacency list — same
keys, same order, same successor lists. -/
theorem claim_C5_pure_read (g : AdjList V) : (topoRun g).adj = g :=
  topoRun_adj g

/-- C6: determinism across repeated calls: running `topological_sort` on the
adjacency state left behind by a previous run returns the same result as the
first call (the function has no hidden state, and the first call did not
mutate the graph). -/
theorem claim_C6_deterministic (g : AdjList V) :
    topological_sort ((topoRun g).adj) = topological_sort g := by
  rw [topoRun_adj g]

/-- C7: `add_edge` first ensures `from` is a key, then ensures `to` is a key
(so `from` precedes `to` when both are new), then appends `to` at the end of
`from`'s successor list without deduplication — adding the same edge twice
stores two entries. -/
theorem claim_C7_add_edge_contract (g : AdjList V) (u v : V) :
    dlookup (add_edge g u v) u = some ((dlookup g u).getD [] ++ [v]) ∧
    (∀ w, w ≠ u → dlookup (add_edge g u v) w
      = dlookup (add_vertex (add_vertex g u) v) w) ∧
    (containsKey g u = false → containsKey g v = false → u ≠ v →
      (add_edge g u v).map Prod.fst = g.map Prod.fst ++ [u, v]) ∧
    dlookup (add_edge (add_edge g u v) u v) u
      = some ((dlookup g u).getD [] ++ [v, v]) := by
  refine ⟨dlookup_add_edge_self g u v, fun w hw => dlookup_add_edge_other g u v w hw,
    fun hu hv huv => keys_add_edge_new g u v hu hv huv, ?_⟩
  rw [dlookup_add_edge_self (add_edge g u v) u v, dlookup_add_edge_self g u v]
  simp

/-- Witness for C7 on the empty graph with the edge `0 → 1` added twice. -/
theorem claim_C7_add_edge_contract_witness :
    dlookup (add_edge ([] : AdjList Nat) 0 1) 0 = some [1] ∧
    dlookup (add_edge ([] : AdjList Nat) 0 1) 5
      = dlookup (add_vertex (add_vertex ([] : AdjList Nat) 0) 1) 5 ∧
    (add_edge ([] : AdjList Nat) 0 1).map Prod.fst = [0, 1] ∧
    dlookup (add_edge (add_edge ([] : AdjList Nat) 0 1) 0 1) 0 = some [1, 1] := by
  obtain ⟨h1, h2, h3, h4⟩ := claim_C7_add_edge_contract ([] : AdjList Nat) 0 1
  exact ⟨h1, h2 5 (by decide), h3 (by decide) (by decide) (by decide), h4⟩

/-- C8: endpoint-closure invariant: after any sequence of `add_vertex` and
`add_edge` calls starting from the empty graph, every vertex occurring in any
successor list is itself a key of the adjacency mapping. -/
theorem claim_C8_endpoint_closure (ops : List (Op V)) : Closed (buildGraph ops) :=
  buildGraph_closed ops

/-- Witness for C8 at a concrete call sequence. -/
theorem claim_C8_endpoint_closure_witness :
    Closed (buildGraph [Op.addE (0 : Nat) 1, Op.addV 2, Op.addE 1 2]) :=
  claim_C8_endpoint_closure [Op.addE 0 1, Op.addV 2, Op.addE 1 2]

/-- C9: termination: for every built graph — cyclic ones included — the
traversal stabilises once the recursion-depth budget reaches the number of
vertices plus one: any larger budget produces the identical run and the
identical result, because each vertex is visited to completion at most once. -/
theorem claim_C9_termination (ops : List (Op V)) (fuel : Nat)
    (hfuel : (buildGraph ops).length + 1 ≤ fuel) :
    topoRunWith fuel (buildGraph ops) = topoRun (buildGraph ops) ∧
    topological_sortWith fuel (buildGraph ops) = topological_sort (buildGraph ops) := by
  have h := topoRunWith_fuel_irrel (buildGraph ops) (buildGraph_closed ops)
    (buildGraph_nodup ops) fuel hfuel
  refine ⟨h, ?_⟩
  show (if (topoRunWith fuel (buildGraph ops)).isDag
      then (topoRunWith fuel (buildGraph ops)).order else [])
    = (if (topoRun (buildGraph ops)).isDag then (topoRun (buildGraph ops)).order else [])
  rw [h]

/-- Witness for C9 at the concrete cyclic graph `0 → 1 → 0` with budget 10. -/
theorem claim_C9_termination_witness :
    (buildGraph [Op.addE (0 : Nat) 1, Op.addE 1 0]).length + 1 ≤ 10 ∧
    (topoRunWith 10 (buildGraph [Op.addE (0 : Nat) 1, Op.addE 1 0])
        = topoRun (buildGraph [Op.addE (0 : Nat) 1, Op.addE 1 0]) ∧
      topological_sortWith 10 (buildGraph [Op.addE (0 : Nat) 1, Op.addE 1 0])
        = topological_sort (buildGraph [Op.addE (0 : Nat) 1, Op.addE 1 0])) :=
  ⟨by decide, claim_C9_termination [Op.addE 0 1, Op.addE 1 0] 10 (by decide)⟩

/-- C10: the two source files implement the same ADT: `add_vertex`, `add_edge`
and `topological_sort` of `Reorganized_Project2.py` agree with those of
`Project2_Refined.py` on every input, so every call sequence produces the same
adjacency state and the same sort result in both. -/
theorem claim_C10_refinement (ops : List (Op V)) :
    Reorganized.buildGraph ops = buildGraph ops ∧
    (∀ (g : AdjList V) (v : V), Reorganized.add_vertex g v = add_vertex g v) ∧
    (∀ (g : AdjList V) (u v : V), Reorganized.add_edge g u v = add_edge g u v) ∧
    (∀ g : AdjList V, Reorganized.topological_sort g = topological_sort g) ∧
    Reorganized.topological_sort (Reorganized.buildGraph ops)
      = topological_sort (buildGraph ops) := by
  refine ⟨re_buildGraph_eq ops, fun g v => re_add_vertex_eq g v,
    fun g u v => re_add_edge_eq g u v, fun g => re_topological_sort_eq g, ?_⟩
  rw [re_buildGraph_eq ops, re_topological_sort_eq]
